import Mathlib

/-!
Verification development for the arXiv LaTeX downloader (src/main.py).

The Python source is shallowly embedded below.  File systems become
explicit finite/functional maps, `os.path` string manipulation is
reimplemented over Lean strings, the recursive inliner's depth counter
becomes a structurally decreasing fuel argument (with the exact
correspondence fuel = max_depth + 1 - depth, so that the Python guard
`depth > max_depth` is precisely `fuel = 0`), and Python exceptions
become `Except`/`Option` results.
-/

set_option autoImplicit false

namespace ArxivDL

/-! ## Path utilities (posixpath semantics, as used by the source)

These are written over `List Char` with hand-rolled primitives so that
every path computation reduces inside the kernel. -/

/-- Boolean prefix test on character lists. -/
def isPrefixL : List Char → List Char → Bool
  | [], _ => true
  | _ :: _, [] => false
  | p :: ps, c :: cs => p == c && isPrefixL ps cs

/-- Boolean substring (infix) test on character lists. -/
def isInfixL (pat : List Char) : List Char → Bool
  | [] => isPrefixL pat []
  | c :: cs => isPrefixL pat (c :: cs) || isInfixL pat cs

/-- `s.endswith pat` on strings. -/
def endsWithS (pat s : String) : Bool := isPrefixL pat.data.reverse s.data.reverse

/-- `s.startswith pat` on strings. -/
def startsWithS (pat s : String) : Bool := isPrefixL pat.data s.data

/-- Split a character list on `/` (like `str.split('/')`). -/
def splitSlash : List Char → List (List Char)
  | [] => [[]]
  | c :: rest =>
    let r := splitSlash rest
    if c == '/' then [] :: r
    else
      match r with
      | [] => [[c]]
      | h :: t => (c :: h) :: t

/-- Join components with `/` separators. -/
def joinSlash : List (List Char) → List Char
  | [] => []
  | [x] => x
  | x :: y :: t => x ++ '/' :: joinSlash (y :: t)

/-- `os.path.basename`: the part of the path after the last slash. -/
def basename (p : String) : String :=
  ⟨(p.data.reverse.takeWhile (fun c => c != '/')).reverse⟩

/-- `os.path.dirname`: everything before the last slash, with trailing
slashes stripped unless the result consists only of slashes. -/
def dirname (p : String) : String :=
  let l := p.data
  let rev := l.reverse
  let afterRev := rev.takeWhile (fun c => c != '/')
  if afterRev.length = l.length then ""
  else
    let headRev := rev.drop afterRev.length
    if headRev.all (fun c => c == '/') then ⟨headRev.reverse⟩
    else ⟨(headRev.dropWhile (fun c => c == '/')).reverse⟩

/-- `os.path.join a b` for the two-argument form used in the source
(the case of an empty second component does not arise). -/
def joinP (a b : String) : String :=
  if startsWithS "/" b then b
  else if a = "" then b
  else if endsWithS "/" a then a ++ b
  else a ++ "/" ++ b

/-- Component loop of `posixpath.normpath`: empty and dot components are
already filtered out; a parent component pops the accumulator unless the
path is relative and the accumulator is empty or already ends in a parent
component (then it is kept), or the path is absolute at the root (then it
is dropped). The accumulator is reversed. -/
def normSegs (isAbs : Bool) : List (List Char) → List (List Char) → List (List Char)
  | acc, [] => acc.reverse
  | acc, c :: rest =>
    if c == ['.', '.'] then
      match acc with
      | [] => if isAbs then normSegs isAbs [] rest else normSegs isAbs [['.', '.']] rest
      | a :: as =>
        if a == ['.', '.'] then normSegs isAbs (['.', '.'] :: a :: as) rest
        else normSegs isAbs as rest
    else normSegs isAbs (c :: acc) rest

/-- `os.path.normpath` (posix form; the special double-initial-slash case
does not arise in this program and is not modelled). -/
def normpath (p : String) : String :=
  if p = "" then "."
  else
    let isAbs := startsWithS "/" p
    let comps := (splitSlash p.data).filter (fun c => !(c == [] || c == ['.']))
    let out := normSegs isAbs [] comps
    let joined := joinSlash out
    if isAbs then ⟨'/' :: joined⟩
    else if joined == [] then "." else ⟨joined⟩

/-! ## The include inliner (`inline_tex`, src/main.py lines 157-195)

A file's text is embedded as the token list the regex substitution
`pattern.sub(replace_match, content)` walks over: literal text pieces
interleaved with inclusion directives `\input{target}` / `\include{target}`
(the directive's brace argument, matched by the regex group, is the
`target` string). -/

/-- One piece of a file, as seen by the substitution pass. -/
inductive Item where
  | text (s : String)
  | incl (target : String)
deriving DecidableEq

/-- A file on disk: readable with tokenised content, or present but
unreadable (an `open`/`read` that raises). -/
inductive FileD where
  | readable (items : List Item)
  | unreadable
deriving DecidableEq

/-- The file system seen by the inliner: `none` means the path does not
exist (`os.path.exists` is false). -/
abbrev FS := String → Option FileD

/-- The content `open(...).read()` yields, if the file is readable. -/
def readF (fs : FS) (p : String) : Option (List Item) :=
  match fs p with
  | some (.readable c) => some c
  | _ => none

/-- Append `.tex` to the directive target when absent. -/
def fixExt (r : String) : String :=
  if endsWithS ".tex" r then r else r ++ ".tex"

/-- Resolution of a directive target: join with the including file's
directory, then normalize. -/
def resolveFrom (filePath target : String) : String :=
  normpath (joinP (dirname filePath) (fixExt target))

def skipMarker (rel : String) : String :=
  "% Skipping already included file: " ++ rel ++ "\n"

def notFoundMarker (rel : String) : String :=
  "% File not found: " ++ rel ++ "\n"

def recLimitMarker (rel : String) : String :=
  "% Recursion limit reached while including: " ++ rel ++ "\n"

def readErrMarker (filePath : String) : String :=
  "% Error reading file: " ++ basename filePath ++ "\n"

/-- The substitution pass over one file's items.  `rec` is the recursive
`inline_tex` call at the next depth; `vis` is the shared
`included_files` set (threaded, since Python mutates it in place).
A directive already in the set becomes a skip marker; a nonexistent
target becomes a not-found marker; otherwise the target is added to the
set and recursively inlined, a `RecursionError` from that call being
caught here and replaced by a limit marker for this one directive. -/
def goItems (fs : FS) (rec : String → List String → Except Unit (String × List String))
    (path : String) : List Item → List String → String × List String
  | [], vis => ("", vis)
  | .text s :: rest, vis =>
    (s ++ (goItems fs rec path rest vis).1, (goItems fs rec path rest vis).2)
  | .incl t :: rest, vis =>
    if resolveFrom path t ∈ vis then
      (skipMarker (fixExt t) ++ (goItems fs rec path rest vis).1,
        (goItems fs rec path rest vis).2)
    else if (fs (resolveFrom path t)).isNone then
      (notFoundMarker (fixExt t) ++ (goItems fs rec path rest vis).1,
        (goItems fs rec path rest vis).2)
    else
      match rec (resolveFrom path t) (resolveFrom path t :: vis) with
      | .error _ =>
        (recLimitMarker (fixExt t) ++
            (goItems fs rec path rest (resolveFrom path t :: vis)).1,
          (goItems fs rec path rest (resolveFrom path t :: vis)).2)
      | .ok (s, vis'') =>
        (s ++ (goItems fs rec path rest vis'').1, (goItems fs rec path rest vis'').2)

/-- Fuel-indexed form of `inline_tex`.  Fuel `max_depth + 1 - depth`
makes the Python guard `depth > max_depth` exactly `fuel = 0`; raising
`RecursionError` is the `Except.error` result, and a read failure of the
file itself yields the read-error marker (the Python body catches it and
returns the marker string). -/
def inlineAux (fs : FS) : Nat → String → List String → Except Unit (String × List String)
  | 0, _, _ => .error ()
  | fuel + 1, path, vis =>
    match readF fs path with
    | none => .ok (readErrMarker path, vis)
    | some items => .ok (goItems fs (inlineAux fs fuel) path items vis)

/-- `inline_tex(file_path, extract_path, included_files, depth, max_depth)`.
The `extract_path` argument is unused by the Python body and omitted.
Returns the inlined text together with the final visited set. -/
def inline_tex (fs : FS) (file_path : String) (included_files : List String)
    (depth max_depth : Nat) : Except Unit (String × List String) :=
  inlineAux fs (max_depth + 1 - depth) file_path included_files

/-- `combine_tex_files`: top-level call with a fresh visited set and the
default depth arguments; a `RecursionError` escaping the top call is
caught and turns the result into `None`. -/
def combine_tex_files (fs : FS) (main_tex : String) : Option String :=
  match inline_tex fs main_tex [] 0 10 with
  | .ok (s, _) => some s
  | .error _ => none

/-! ## The identifier parser (`parse_arxiv_id`, src/main.py lines 47-54)

The regex is
  arxiv\.org/(?:abs|pdf)/([a-z\-]+/\d{7}|(\d+\.\d+))
and `re.search` returns group 1 of the leftmost match, or `None`.
Each alternative is implemented by the forced greedy scan the regex
engine performs (the character classes of adjacent pieces are disjoint,
so no backtracking can occur).  `\d` is modelled as an ASCII digit. -/

/-- The class `[a-z\-]` of the legacy identifier's first segment. -/
def segChar (c : Char) : Bool := (97 ≤ c.toNat && c.toNat ≤ 122) || c.toNat == 45

/-- The class `\d` (ASCII digit). -/
def digitChar (c : Char) : Bool := 48 ≤ c.toNat && c.toNat ≤ 57

/-- Strip a literal from the front, returning the rest on success. -/
def stripLit : List Char → List Char → Option (List Char)
  | [], s => some s
  | _ :: _, [] => none
  | p :: ps, c :: cs => if p == c then stripLit ps cs else none

/-- The alternative `[a-z\-]+/\d{7}`: the segment run is forced (a slash
is not a segment character), then a slash and exactly seven digits;
returns (matched text, rest). -/
def matchLegacy (s : List Char) : Option (List Char × List Char) :=
  match s.dropWhile segChar with
  | c :: r2 =>
    if c = '/' then
      if s.takeWhile segChar = [] then none
      else if (r2.take 7).length = 7 then
        if (r2.take 7).all digitChar then
          some (s.takeWhile segChar ++ '/' :: r2.take 7, r2.drop 7)
        else none
      else none
    else none
  | [] => none

/-- The alternative `\d+\.\d+`: the digit runs are forced (a dot is not a
digit); returns (matched text, rest). -/
def matchModern (s : List Char) : Option (List Char × List Char) :=
  match s.dropWhile digitChar with
  | c :: r2 =>
    if c = '.' then
      if s.takeWhile digitChar = [] then none
      else if r2.takeWhile digitChar = [] then none
      else some (s.takeWhile digitChar ++ '.' :: r2.takeWhile digitChar,
        r2.drop (r2.takeWhile digitChar).length)
    else none
  | [] => none

/-- The capture group `([a-z\-]+/\d{7}|(\d+\.\d+))`, left alternative
first. -/
def matchAlt (s : List Char) : Option (List Char × List Char) :=
  match matchLegacy s with
  | some r => some r
  | none => matchModern s

/-- The whole pattern anchored at the current position; yields group 1. -/
def matchAt (s : List Char) : Option (List Char) :=
  match stripLit "arxiv.org/".data s with
  | none => none
  | some r1 =>
    match stripLit "abs/".data r1 with
    | some r2 => (matchAlt r2).map (fun r => r.1)
    | none =>
      match stripLit "pdf/".data r1 with
      | some r2 => (matchAlt r2).map (fun r => r.1)
      | none => none

/-- `re.search`: try the pattern at every position, leftmost first. -/
def searchL : List Char → Option (List Char)
  | [] => none
  | c :: rest =>
    match matchAt (c :: rest) with
    | some g => some g
    | none => searchL rest

/-- `parse_arxiv_id(url)`: group 1 of the leftmost regex match, else
`None`. -/
def parse_arxiv_id (url : String) : Option String :=
  (searchL url.data).map (fun g => ⟨g⟩)

/-! ## Cache store and source download (src/main.py lines 21-89)

Archive bytes are a list of numbers; the on-disk state is a functional
map from absolute paths to file bytes.  The network collaborator is a
function from an identifier to a response (a status code with a body, or
a transport exception).  The temporary-directory indirection of the
download path (write to a fresh `mkdtemp` file, copy into the cache,
remove the temporary tree) composes to a single write of the fetched
body at the cached archive path, which is how `cache_tar` is modelled.
The fixed `CACHE_DIR` (derived from the user's home directory) is passed
explicitly as `cacheDir`. -/

abbrev ByteSeq := List Nat

/-- The persistent file-system state relevant to the cache. -/
abbrev FileSys := String → Option ByteSeq

/-- Point update of the file-system state (a file write). -/
def updateF (fs : FileSys) (p : String) (b : ByteSeq) : FileSys :=
  fun q => if q = p then some b else fs q

/-- What `requests.get` produced. -/
inductive NetResp where
  | resp (status : Nat) (body : ByteSeq)
  | exn

/-- `get_cache_subdir`: sanitize the identifier (slashes to underscores)
and join it under the cache root. -/
def get_cache_subdir (cacheDir arxiv_id : String) : String :=
  joinP cacheDir ⟨arxiv_id.data.map (fun c => if c == '/' then '_' else c)⟩

/-- `is_cached`: the cached archive file exists. -/
def is_cached (cacheDir : String) (fs : FileSys) (arxiv_id : String) : Bool :=
  (fs (joinP (get_cache_subdir cacheDir arxiv_id) "source.tar.gz")).isSome

/-- `cache_tar`: copy the downloaded archive bytes into the cache
subdirectory (created if absent) under the name `source.tar.gz`. -/
def cache_tar (cacheDir : String) (fs : FileSys) (arxiv_id : String) (body : ByteSeq) : FileSys :=
  updateF fs (joinP (get_cache_subdir cacheDir arxiv_id) "source.tar.gz") body

/-- Result of `download_source`: the returned pair (`None, None` becomes
`none`), the file system afterwards, and how many network requests were
made. -/
structure DLResult where
  paths : Option (String × String)
  fs : FileSys
  netCalls : Nat

/-- `download_source(arxiv_id)`: return the cached archive path and its
directory if cached; otherwise fetch, and on a 200 response store the
body in the cache and return the same pair; on any other status or a
transport exception return `None, None` leaving the state unchanged. -/
def download_source (net : String → NetResp) (cacheDir : String) (fs : FileSys)
    (arxiv_id : String) : DLResult :=
  let cache_subdir := get_cache_subdir cacheDir arxiv_id
  let tar_path := joinP cache_subdir "source.tar.gz"
  if is_cached cacheDir fs arxiv_id then
    ⟨some (tar_path, cache_subdir), fs, 0⟩
  else
    match net arxiv_id with
    | .exn => ⟨none, fs, 1⟩
    | .resp status body =>
      if status = 200 then
        ⟨some (tar_path, cache_subdir), cache_tar cacheDir fs arxiv_id body, 1⟩
      else ⟨none, fs, 1⟩

/-! ## Archive extraction (`extract_tar`, src/main.py lines 91-103)

`tarfile.extractall(path)` writes every member at the join of the
destination with the member's stored name; nothing checks that the
resolved location stays inside the destination. -/

/-- Where one archive member lands on disk (after the OS resolves parent
segments). -/
def extract_target (dest name : String) : String :=
  normpath (joinP dest name)

/-- `extract_tar` write set: every archive entry is written at its
resolved target below (or, via parent segments, outside) `dest`. -/
def extract_tar (entries : List (String × ByteSeq)) (dest : String) :
    List (String × ByteSeq) :=
  entries.map (fun e => (extract_target dest e.1, e.2))

/-- Whether a resolved path lies inside the directory `dest`. -/
def withinDir (dest p : String) : Bool :=
  p == dest || startsWithS (dest ++ "/") p

/-! ## Entry-point detection (`find_main_tex`, src/main.py lines 105-155)

The `os.walk` traversal is embedded as the list of discovered files in
traversal order; each carries its joined path, its content (`none` when
opening/reading it raises), and its byte size. -/

structure WalkFile where
  path : String
  content : Option String
  size : Nat
deriving DecidableEq

/-- The conventional entry-point names of heuristic 1. -/
def common_names : List String :=
  ["main.tex", "paper.tex", "content.tex", "article.tex", "thesis.tex"]

/-- The six structural-marker patterns of heuristic 2.  Each regex in the
source is a literal string once unescaped, so `re.search` is a substring
test. -/
def essential_commands : List String :=
  ["\\documentclass", "\\begin\x7bdocument\x7d", "\\title\x7b", "\\author\x7b",
   "\\maketitle", "\\usepackage"]

/-- Python `str.lower()` (ASCII range, which covers the file names
compared here). -/
def lowerS (s : String) : String := ⟨s.data.map Char.toLower⟩

/-- Heuristic 2 score: one point per structural marker found in the
content. -/
def texScore (content : String) : Nat :=
  (essential_commands.filter (fun cmd => isInfixL cmd.data content.data)).length

/-- The `.tex` files of the walk, in traversal order. -/
def texFiles (files : List WalkFile) : List WalkFile :=
  files.filter (fun f => endsWithS ".tex" f.path)

/-- Heuristic 1 predicate: base name, lower-cased, is conventional. -/
def isConvName (f : WalkFile) : Bool :=
  common_names.contains (lowerS (basename f.path))

/-- The `candidate_scores` association in insertion order: reading
failures are skipped. -/
def scoredList (files : List WalkFile) : List (String × Nat) :=
  (texFiles files).filterMap (fun f => f.content.map (fun c => (f.path, texScore c)))

/-- `max(candidate_scores, key=candidate_scores.get)`: fold keeping the
incumbent unless a later entry is strictly greater, so the first maximal
entry wins. -/
def pmFold (best : String × Nat) : List (String × Nat) → String × Nat
  | [] => best
  | y :: ys => pmFold (if y.2 > best.2 then y else best) ys

def pickMax : List (String × Nat) → Option (String × Nat)
  | [] => none
  | x :: xs => some (pmFold x xs)

/-- Stable insertion into a size-descending list (`sorted` with
`reverse=True` keeps equal keys in original order, so an earlier file is
inserted before later files of equal size). -/
def insDesc (x : WalkFile) : List WalkFile → List WalkFile
  | [] => [x]
  | y :: ys => if y.size > x.size then y :: insDesc x ys else x :: y :: ys

/-- `sorted(tex_files, key=getsize, reverse=True)`. -/
def sortBySizeDesc : List WalkFile → List WalkFile
  | [] => []
  | f :: fs => insDesc f (sortBySizeDesc fs)

/-- `find_main_tex`: heuristic 1 (first conventional name), else
heuristic 2 (first highest-scoring readable file, if the best score is
positive), else heuristic 3 (largest file). -/
def find_main_tex (files : List WalkFile) : Option String :=
  let tex := texFiles files
  if tex.isEmpty then none
  else
    match tex.find? isConvName with
    | some f => some f.path
    | none =>
      let h3 := (sortBySizeDesc tex).head?.map (fun f => f.path)
      match pickMax (scoredList files) with
      | some best => if best.2 > 0 then some best.1 else h3
      | none => h3

/-! ## The pipeline (`process_arxiv_link`, src/main.py lines 210-259)

Only the data path that the claims mention is modelled: parse the URL,
download (or reuse) the archive, and hand the returned pair to
`extract_tar` as archive location and extraction destination.  The
result is that pair, or `none` when parsing or downloading failed. -/

def process_extract_dest (net : String → NetResp) (cacheDir : String) (fs : FileSys)
    (url : String) : Option (String × String) :=
  match parse_arxiv_id url with
  | none => none
  | some arxiv_id => (download_source net cacheDir fs arxiv_id).paths

/-- Faithfulness of the fuel encoding: `inline_tex` satisfies the Python
body's defining equation, raising exactly when `depth > max_depth` and
otherwise substituting over the file's items with the recursive call at
`depth + 1`. -/
theorem inline_tex_eq (fs : FS) (p : String) (vis : List String) (d m : Nat) :
    inline_tex fs p vis d m =
      if d > m then .error ()
      else
        match readF fs p with
        | none => .ok (readErrMarker p, vis)
        | some items => .ok (goItems fs (fun q v => inline_tex fs q v (d + 1) m) p items vis) := by
  unfold inline_tex
  by_cases h : d > m
  · have h0 : m + 1 - d = 0 := by omega
    rw [h0]
    simp [inlineAux, h]
  · have h0 : m + 1 - d = (m - d) + 1 := by omega
    rw [h0]
    have h1 : m + 1 - (d + 1) = m - d := by omega
    rw [if_neg h, h1]
    rfl

/-! ## Structural characterisation of the identifier grammar -/

/-- A nonempty run of legacy-segment characters. -/
def SegStr (l : List Char) : Prop := l ≠ [] ∧ ∀ c ∈ l, segChar c = true

/-- A nonempty run of digits. -/
def DigitStr (l : List Char) : Prop := l ≠ [] ∧ ∀ c ∈ l, digitChar c = true

/-- The legacy identifier shape, segment slash seven digits. -/
def LegacyForm (g : List Char) : Prop :=
  ∃ seg ds, g = seg ++ '/' :: ds ∧ SegStr seg ∧ ds.length = 7 ∧ ∀ c ∈ ds, digitChar c = true

/-- The modern identifier shape, digits dot digits. -/
def ModernForm (g : List Char) : Prop :=
  ∃ d1 d2, g = d1 ++ '.' :: d2 ∧ DigitStr d1 ∧ DigitStr d2

/-- The pattern of the source regex anchored at the start of `r`. -/
def CodeGrammarAt (r : List Char) : Prop :=
  ∃ ap g rest, (ap = "abs/".data ∨ ap = "pdf/".data) ∧
    r = "arxiv.org/".data ++ (ap ++ (g ++ rest)) ∧ (LegacyForm g ∨ ModernForm g)

/-- The code's grammar: the source regex matches somewhere in `s`. -/
def CodeGrammar (s : List Char) : Prop := ∃ pre r, s = pre ++ r ∧ CodeGrammarAt r

/-- The grammar the spec sentence describes: a legacy-form or modern-form
identifier occurring anywhere, with no requirement on what precedes it
(the preceding `abs`/`pdf` path is optional in the spec's wording). -/
def SpecGrammar (s : List Char) : Prop :=
  ∃ pre g post, s = pre ++ (g ++ post) ∧ (LegacyForm g ∨ ModernForm g)

theorem stripLit_eq_some : ∀ (p s t : List Char), stripLit p s = some t ↔ s = p ++ t
  | [], s, t => by simp [stripLit]
  | _ :: _, [], t => by simp [stripLit]
  | p :: ps, c :: cs, t => by
    by_cases h : p = c
    · subst h
      simp only [stripLit, beq_self_eq_true, if_true, List.cons_append, List.cons.injEq,
        true_and]
      exact stripLit_eq_some ps cs t
    · simp [stripLit, h, Ne.symm h]

theorem takeWhile_append_all {p : Char → Bool} :
    ∀ (a : List Char) {b : Char} (t : List Char), (∀ c ∈ a, p c = true) → p b = false →
      (a ++ b :: t).takeWhile p = a ∧ (a ++ b :: t).dropWhile p = b :: t
  | [], b, t, _, hb => by simp [List.takeWhile_cons, List.dropWhile_cons, hb]
  | c :: a', b, t, ha, hb => by
    have hc : p c = true := ha c (by simp)
    have ih := takeWhile_append_all a' t (fun x hx => ha x (by simp [hx])) hb
    simp [List.takeWhile_cons, List.dropWhile_cons, hc, ih.1, ih.2]

theorem matchLegacy_sound {s g rest : List Char}
    (h : matchLegacy s = some (g, rest)) : s = g ++ rest ∧ LegacyForm g := by
  unfold matchLegacy at h
  split at h
  next c r2 heq =>
    split at h
    next hc =>
      subst hc
      split at h
      next h1 => cases h
      next h1 =>
        split at h
        next h2 =>
          split at h
          next h3 =>
            simp only [Option.some.injEq, Prod.mk.injEq] at h
            obtain ⟨hg, hrest⟩ := h
            constructor
            · rw [← hg, ← hrest]
              calc s = s.takeWhile segChar ++ s.dropWhile segChar :=
                      (List.takeWhile_append_dropWhile ..).symm
                _ = s.takeWhile segChar ++ '/' :: r2 := by rw [heq]
                _ = s.takeWhile segChar ++ '/' :: (r2.take 7 ++ r2.drop 7) := by
                      rw [List.take_append_drop]
                _ = (s.takeWhile segChar ++ '/' :: r2.take 7) ++ r2.drop 7 := by simp
            · refine ⟨s.takeWhile segChar, r2.take 7, hg.symm, ⟨h1, ?_⟩, h2,
                List.all_eq_true.mp h3⟩
              intro c hc
              exact List.mem_takeWhile_imp hc
          next h3 => cases h
        next h2 => cases h
    next hc => cases h
  next heq => cases h

theorem matchModern_sound {s g rest : List Char}
    (h : matchModern s = some (g, rest)) : s = g ++ rest ∧ ModernForm g := by
  unfold matchModern at h
  split at h
  next c r2 heq =>
    split at h
    next hc =>
      subst hc
      split at h
      next h1 => cases h
      next h1 =>
        split at h
        next h2 => cases h
        next h2 =>
          simp only [Option.some.injEq, Prod.mk.injEq] at h
          obtain ⟨hg, hrest⟩ := h
          have htk : r2.take (r2.takeWhile digitChar).length = r2.takeWhile digitChar :=
            (List.prefix_iff_eq_take.mp (List.takeWhile_prefix _)).symm
          constructor
          · rw [← hg, ← hrest]
            calc s = s.takeWhile digitChar ++ s.dropWhile digitChar :=
                    (List.takeWhile_append_dropWhile ..).symm
              _ = s.takeWhile digitChar ++ '.' :: r2 := by rw [heq]
              _ = s.takeWhile digitChar ++ '.' ::
                    (r2.take (r2.takeWhile digitChar).length ++
                      r2.drop (r2.takeWhile digitChar).length) := by
                    rw [List.take_append_drop]
              _ = s.takeWhile digitChar ++ '.' ::
                    (r2.takeWhile digitChar ++ r2.drop (r2.takeWhile digitChar).length) := by
                    rw [htk]
              _ = (s.takeWhile digitChar ++ '.' :: r2.takeWhile digitChar) ++
                    r2.drop (r2.takeWhile digitChar).length := by simp
          · refine ⟨s.takeWhile digitChar, r2.takeWhile digitChar, hg.symm, ⟨h1, ?_⟩,
              h2, ?_⟩ <;> intro c hc <;> exact List.mem_takeWhile_imp hc
    next hc => cases h
  next heq => cases h

theorem matchLegacy_complete {g : List Char} (hg : LegacyForm g) (rest : List Char) :
    (matchLegacy (g ++ rest)).isSome := by
  obtain ⟨seg, ds, rfl, ⟨hne, hseg⟩, hlen, hdig⟩ := hg
  have hre : (seg ++ '/' :: ds) ++ rest = seg ++ '/' :: (ds ++ rest) := by simp
  have hdw := @takeWhile_append_all segChar seg '/' (ds ++ rest) hseg (by decide)
  have h1 : ((seg ++ '/' :: ds) ++ rest).dropWhile segChar = '/' :: (ds ++ rest) := by
    rw [hre]; exact hdw.2
  have h2 : ((seg ++ '/' :: ds) ++ rest).takeWhile segChar = seg := by
    rw [hre]; exact hdw.1
  have h3 : (ds ++ rest).take 7 = ds := by
    rw [← hlen]; exact List.take_left ..
  unfold matchLegacy
  rw [h1]
  simp only []
  rw [h2, h3]
  simp [hne, hlen, List.all_eq_true.mpr hdig]

theorem matchModern_complete {g : List Char} (hg : ModernForm g) (rest : List Char) :
    (matchModern (g ++ rest)).isSome := by
  obtain ⟨d1, d2, rfl, ⟨h1ne, h1d⟩, h2ne, h2d⟩ := hg
  obtain ⟨c, t, rfl⟩ : ∃ c t, d2 = c :: t := by
    cases d2 with
    | nil => exact absurd rfl h2ne
    | cons c t => exact ⟨c, t, rfl⟩
  have hre : (d1 ++ '.' :: c :: t) ++ rest = d1 ++ '.' :: ((c :: t) ++ rest) := by simp
  have hdw := @takeWhile_append_all digitChar d1 '.' ((c :: t) ++ rest) h1d (by decide)
  have h1 : ((d1 ++ '.' :: c :: t) ++ rest).dropWhile digitChar = '.' :: ((c :: t) ++ rest) := by
    rw [hre]; exact hdw.2
  have h2 : ((d1 ++ '.' :: c :: t) ++ rest).takeWhile digitChar = d1 := by
    rw [hre]; exact hdw.1
  have hc : digitChar c = true := h2d c (by simp)
  have h4 : ((c :: t) ++ rest).takeWhile digitChar = c :: (t ++ rest).takeWhile digitChar := by
    simp [List.takeWhile_cons, hc]
  unfold matchModern
  rw [h1]
  simp only []
  rw [h2, h4]
  simp [h1ne]

theorem matchAlt_sound {s g rest : List Char} (h : matchAlt s = some (g, rest)) :
    s = g ++ rest ∧ (LegacyForm g ∨ ModernForm g) := by
  unfold matchAlt at h
  cases hml : matchLegacy s with
  | some r =>
    rw [hml] at h
    obtain ⟨hs, hf⟩ := matchLegacy_sound (hml.trans h)
    exact ⟨hs, Or.inl hf⟩
  | none =>
    rw [hml] at h
    simp only [] at h
    obtain ⟨hs, hf⟩ := matchModern_sound h
    exact ⟨hs, Or.inr hf⟩

theorem matchAlt_complete {g : List Char} (hg : LegacyForm g ∨ ModernForm g)
    (rest : List Char) : (matchAlt (g ++ rest)).isSome := by
  unfold matchAlt
  cases hml : matchLegacy (g ++ rest) with
  | some r => simp
  | none =>
    simp only []
    rcases hg with hf | hf
    · exact absurd (matchLegacy_complete hf rest) (by simp [hml])
    · exact matchModern_complete hf rest

theorem matchAt_sound {r g : List Char} (h : matchAt r = some g) :
    CodeGrammarAt r ∧ (LegacyForm g ∨ ModernForm g) := by
  unfold matchAt at h
  split at h
  next ha => cases h
  next r1 ha =>
    have hr : r = "arxiv.org/".data ++ r1 := (stripLit_eq_some ..).mp ha
    split at h
    next r2 hb =>
      have hr1 : r1 = "abs/".data ++ r2 := (stripLit_eq_some ..).mp hb
      obtain ⟨pr, hpr, hg⟩ := Option.map_eq_some'.mp h
      obtain ⟨hs, hf⟩ := @matchAlt_sound r2 pr.1 pr.2 (by rw [hpr])
      subst hg
      exact ⟨⟨"abs/".data, pr.1, pr.2, Or.inl rfl, by rw [hr, hr1, hs], hf⟩, hf⟩
    next hb =>
      split at h
      next r2 hp =>
        have hr1 : r1 = "pdf/".data ++ r2 := (stripLit_eq_some ..).mp hp
        obtain ⟨pr, hpr, hg⟩ := Option.map_eq_some'.mp h
        obtain ⟨hs, hf⟩ := @matchAlt_sound r2 pr.1 pr.2 (by rw [hpr])
        subst hg
        exact ⟨⟨"pdf/".data, pr.1, pr.2, Or.inr rfl, by rw [hr, hr1, hs], hf⟩, hf⟩
      next hp => cases h

theorem matchAt_complete {r : List Char} (h : CodeGrammarAt r) : (matchAt r).isSome := by
  obtain ⟨ap, g, rest, hap, hr, hform⟩ := h
  subst hr
  have ha : stripLit "arxiv.org/".data ("arxiv.org/".data ++ (ap ++ (g ++ rest)))
      = some (ap ++ (g ++ rest)) := (stripLit_eq_some ..).mpr rfl
  unfold matchAt
  rw [ha]
  simp only []
  rcases hap with rfl | rfl
  · have hb : stripLit "abs/".data ("abs/".data ++ (g ++ rest)) = some (g ++ rest) :=
      (stripLit_eq_some ..).mpr rfl
    rw [hb]
    simp only []
    obtain ⟨pr, hpr⟩ := Option.isSome_iff_exists.mp (matchAlt_complete hform rest)
    simp [hpr]
  · have hb : stripLit "abs/".data ("pdf/".data ++ (g ++ rest)) = none := rfl
    have hp : stripLit "pdf/".data ("pdf/".data ++ (g ++ rest)) = some (g ++ rest) :=
      (stripLit_eq_some ..).mpr rfl
    rw [hb]
    simp only []
    rw [hp]
    simp only []
    obtain ⟨pr, hpr⟩ := Option.isSome_iff_exists.mp (matchAlt_complete hform rest)
    simp [hpr]

theorem searchL_sound {s g : List Char} (h : searchL s = some g) :
    ∃ pre r, s = pre ++ r ∧ matchAt r = some g := by
  induction s with
  | nil => cases h
  | cons c rest ih =>
    unfold searchL at h
    cases hm : matchAt (c :: rest) with
    | some g' =>
      rw [hm] at h
      exact ⟨[], c :: rest, rfl, hm.trans h⟩
    | none =>
      rw [hm] at h
      simp only [] at h
      obtain ⟨pre, r, hre, hr⟩ := ih h
      exact ⟨c :: pre, r, by rw [List.cons_append, hre], hr⟩

theorem searchL_complete {s : List Char} (h : ∃ pre r, s = pre ++ r ∧ (matchAt r).isSome) :
    (searchL s).isSome := by
  induction s with
  | nil =>
    obtain ⟨pre, r, hre, hr⟩ := h
    have hr0 : r = [] := (List.append_eq_nil.mp hre.symm).2
    subst hr0
    rw [show matchAt ([] : List Char) = none from rfl] at hr
    simp at hr
  | cons c rest ih =>
    obtain ⟨pre, r, hre, hr⟩ := h
    unfold searchL
    cases hm : matchAt (c :: rest) with
    | some g => simp
    | none =>
      simp only []
      cases pre with
      | nil =>
        simp only [List.nil_append] at hre
        rw [← hre] at hr
        rw [hm] at hr
        simp at hr
      | cons d pre' =>
        simp only [List.cons_append, List.cons.injEq] at hre
        exact ih ⟨pre', r, hre.2, hr⟩

/-- The executable parser succeeds exactly on strings matched by the
source regex's grammar. -/
theorem parse_isSome_iff (url : String) :
    (parse_arxiv_id url).isSome ↔ CodeGrammar url.data := by
  unfold parse_arxiv_id CodeGrammar
  constructor
  · intro h
    obtain ⟨g, hg⟩ := Option.isSome_iff_exists.mp h
    obtain ⟨g', hg', _⟩ := Option.map_eq_some'.mp hg
    obtain ⟨pre, r, hre, hr⟩ := searchL_sound hg'
    exact ⟨pre, r, hre, (matchAt_sound hr).1⟩
  · intro hcg
    obtain ⟨pre, r, hre, hr⟩ := hcg
    obtain ⟨g, hg⟩ := Option.isSome_iff_exists.mp
      (searchL_complete ⟨pre, r, hre, matchAt_complete hr⟩)
    rw [hg]
    rfl

/-- Any identifier the parser returns has the legacy or the modern
shape. -/
theorem parse_some_form {url id : String} (h : parse_arxiv_id url = some id) :
    LegacyForm id.data ∨ ModernForm id.data := by
  unfold parse_arxiv_id at h
  obtain ⟨g, hg, hid⟩ := Option.map_eq_some'.mp h
  obtain ⟨pre, r, hre, hr⟩ := searchL_sound hg
  have hform := (matchAt_sound hr).2
  have hdata : id.data = g := by rw [← hid]
  rw [hdata]
  exact hform

/-! ## Consequences for re-parsing a returned identifier -/

theorem legacyForm_no_dot {g : List Char} (h : LegacyForm g) : '.' ∉ g := by
  obtain ⟨seg, ds, rfl, ⟨_, hseg⟩, _, hdig⟩ := h
  intro hmem
  simp only [List.mem_append, List.mem_cons] at hmem
  rcases hmem with h1 | h1 | h1
  · exact absurd (hseg _ h1) (by decide)
  · exact absurd h1 (by decide)
  · exact absurd (hdig _ h1) (by decide)

theorem modernForm_no_r {g : List Char} (h : ModernForm g) : 'r' ∉ g := by
  obtain ⟨d1, d2, rfl, ⟨_, h1d⟩, _, h2d⟩ := h
  intro hmem
  simp only [List.mem_append, List.mem_cons] at hmem
  rcases hmem with h1 | h1 | h1
  · exact absurd (h1d _ h1) (by decide)
  · exact absurd h1 (by decide)
  · exact absurd (h2d _ h1) (by decide)

theorem codeGrammar_has {s : List Char} (h : CodeGrammar s) : '.' ∈ s ∧ 'r' ∈ s := by
  obtain ⟨pre, r, rfl, ap, g, rest, hap, rfl, _⟩ := h
  constructor
  · have : '.' ∈ "arxiv.org/".data := by decide
    simp [List.mem_append, this]
  · have : 'r' ∈ "arxiv.org/".data := by decide
    simp [List.mem_append, this]

/-- A successfully returned identifier never re-parses: the group the
regex captured cannot itself contain the mandatory host literal. -/
theorem parse_output_reparse_none {url id : String} (h : parse_arxiv_id url = some id) :
    parse_arxiv_id id = none := by
  have hform := parse_some_form h
  have hns : ¬(parse_arxiv_id id).isSome := by
    rw [parse_isSome_iff]
    intro hcg
    obtain ⟨hdot, hr⟩ := codeGrammar_has hcg
    rcases hform with hf | hf
    · exact legacyForm_no_dot hf hdot
    · exact modernForm_no_r hf hr
  exact Option.not_isSome_iff_eq_none.mp hns

/-! ## First-maximum characterisation of the scoring fold -/

/-- The maximum score in a candidate list (0 when empty). -/
def maxVal : List (String × Nat) → Nat
  | [] => 0
  | y :: ys => max y.2 (maxVal ys)

theorem find?_cons_pos {α : Type} (p : α → Bool) (a : α) (l : List α) (h : p a = true) :
    (a :: l).find? p = some a := by
  simp [List.find?, h]

theorem find?_cons_neg {α : Type} (p : α → Bool) (a : α) (l : List α) (h : p a = false) :
    (a :: l).find? p = l.find? p := by
  simp [List.find?, h]

theorem pmFold_find : ∀ (xs : List (String × Nat)) (best : String × Nat),
    (best :: xs).find? (fun z => z.2 == max best.2 (maxVal xs)) = some (pmFold best xs)
  | [], best => by simp [pmFold, maxVal]
  | y :: ys, best => by
    have ih := pmFold_find ys (if y.2 > best.2 then y else best)
    by_cases hyb : y.2 > best.2
    · rw [if_pos hyb] at ih
      have hstep : pmFold best (y :: ys) = pmFold y ys := by
        simp only [pmFold]
        rw [if_pos hyb]
      have hMeq : max y.2 (maxVal ys) = max best.2 (maxVal (y :: ys)) := by
        simp only [maxVal]
        omega
      rw [hstep, find?_cons_neg (fun z : String × Nat => z.2 == max best.2 (maxVal (y :: ys)))
        best (y :: ys)
        (show (best.2 == max best.2 (maxVal (y :: ys))) = false by
          simp only [beq_eq_false_iff_ne, ne_eq]
          rw [← hMeq]
          omega)]
      rw [← hMeq]
      exact ih
    · rw [if_neg hyb] at ih
      push_neg at hyb
      have hstep : pmFold best (y :: ys) = pmFold best ys := by
        simp only [pmFold]
        rw [if_neg (by omega)]
      have hMeq : max best.2 (maxVal ys) = max best.2 (maxVal (y :: ys)) := by
        simp only [maxVal]
        omega
      rw [hstep, ← hMeq]
      by_cases hb : best.2 = max best.2 (maxVal ys)
      · have hpos : (best.2 == max best.2 (maxVal ys)) = true := by
          simp only [beq_iff_eq]
          omega
        rw [find?_cons_pos (fun z : String × Nat => z.2 == max best.2 (maxVal ys))
          best (y :: ys) hpos]
        rw [find?_cons_pos (fun z : String × Nat => z.2 == max best.2 (maxVal ys))
          best ys hpos] at ih
        exact ih
      · have hneg : (best.2 == max best.2 (maxVal ys)) = false := by
          simp only [beq_eq_false_iff_ne, ne_eq]
          omega
        have hyneg : (y.2 == max best.2 (maxVal ys)) = false := by
          simp only [beq_eq_false_iff_ne, ne_eq]
          omega
        rw [find?_cons_neg (fun z : String × Nat => z.2 == max best.2 (maxVal ys))
          best (y :: ys) hneg]
        rw [find?_cons_neg (fun z : String × Nat => z.2 == max best.2 (maxVal ys))
          y ys hyneg]
        rw [find?_cons_neg (fun z : String × Nat => z.2 == max best.2 (maxVal ys))
          best ys hneg] at ih
        exact ih

theorem pickMax_eq_find? (x : String × Nat) (xs : List (String × Nat)) :
    pickMax (x :: xs) = (x :: xs).find? (fun z => z.2 == maxVal (x :: xs)) := by
  rw [show maxVal (x :: xs) = max x.2 (maxVal xs) from rfl]
  exact (pmFold_find xs x).symm

theorem maxVal_mem : ∀ {l : List (String × Nat)}, l ≠ [] → ∃ z ∈ l, z.2 = maxVal l
  | [], h => absurd rfl h
  | y :: ys, _ => by
    by_cases hys : ys = []
    · subst hys
      exact ⟨y, by simp, by simp [maxVal]⟩
    · obtain ⟨z, hz, hzv⟩ := maxVal_mem hys
      by_cases hcmp : maxVal ys ≤ y.2
      · exact ⟨y, by simp, by simp [maxVal]; omega⟩
      · refine ⟨z, by simp [hz], ?_⟩
        simp only [maxVal]
        omega

theorem insDesc_ne_nil (x : WalkFile) : ∀ l, insDesc x l ≠ []
  | [] => by simp [insDesc]
  | y :: ys => by
    unfold insDesc
    split <;> simp

theorem sortBySizeDesc_ne_nil {l : List WalkFile} (h : l ≠ []) : sortBySizeDesc l ≠ [] := by
  cases l with
  | nil => exact absurd rfl h
  | cons f fs => exact insDesc_ne_nil f (sortBySizeDesc fs)

/-! ## Step lemmas for the inliner -/

theorem inlineAux_zero (fs : FS) (path : String) (vis : List String) :
    inlineAux fs 0 path vis = .error () := rfl

theorem inlineAux_succ (fs : FS) (n : Nat) (path : String) (vis : List String) :
    inlineAux fs (n + 1) path vis =
      match readF fs path with
      | none => .ok (readErrMarker path, vis)
      | some items => .ok (goItems fs (inlineAux fs n) path items vis) := rfl

theorem goItems_nil (fs : FS) (rec : String → List String → Except Unit (String × List String))
    (path : String) (vis : List String) : goItems fs rec path [] vis = ("", vis) := rfl

theorem goItems_text (fs : FS) (rec : String → List String → Except Unit (String × List String))
    (path s : String) (rest : List Item) (vis : List String) :
    goItems fs rec path (.text s :: rest) vis =
      (s ++ (goItems fs rec path rest vis).1, (goItems fs rec path rest vis).2) := rfl

theorem goItems_incl_skip (fs : FS)
    (rec : String → List String → Except Unit (String × List String))
    (path t : String) (rest : List Item) (vis : List String)
    (h : resolveFrom path t ∈ vis) :
    goItems fs rec path (.incl t :: rest) vis =
      (skipMarker (fixExt t) ++ (goItems fs rec path rest vis).1,
        (goItems fs rec path rest vis).2) := by
  simp only [goItems]
  rw [if_pos h]

theorem goItems_incl_notfound (fs : FS)
    (rec : String → List String → Except Unit (String × List String))
    (path t : String) (rest : List Item) (vis : List String)
    (h1 : resolveFrom path t ∉ vis) (h2 : fs (resolveFrom path t) = none) :
    goItems fs rec path (.incl t :: rest) vis =
      (notFoundMarker (fixExt t) ++ (goItems fs rec path rest vis).1,
        (goItems fs rec path rest vis).2) := by
  simp only [goItems]
  rw [if_neg h1, if_pos (by rw [h2]; rfl)]

theorem goItems_incl_rec_ok (fs : FS)
    (rec : String → List String → Except Unit (String × List String))
    (path t : String) (rest : List Item) (vis vis'' : List String) (s : String)
    (h1 : resolveFrom path t ∉ vis) (h2 : (fs (resolveFrom path t)).isNone = false)
    (h3 : rec (resolveFrom path t) (resolveFrom path t :: vis) = .ok (s, vis'')) :
    goItems fs rec path (.incl t :: rest) vis =
      (s ++ (goItems fs rec path rest vis'').1, (goItems fs rec path rest vis'').2) := by
  simp only [goItems]
  rw [if_neg h1, if_neg (by rw [h2]; simp)]
  rw [h3]

theorem goItems_incl_rec_err (fs : FS)
    (rec : String → List String → Except Unit (String × List String))
    (path t : String) (rest : List Item) (vis : List String)
    (h1 : resolveFrom path t ∉ vis) (h2 : (fs (resolveFrom path t)).isNone = false)
    (h3 : rec (resolveFrom path t) (resolveFrom path t :: vis) = .error ()) :
    goItems fs rec path (.incl t :: rest) vis =
      (recLimitMarker (fixExt t) ++
          (goItems fs rec path rest (resolveFrom path t :: vis)).1,
        (goItems fs rec path rest (resolveFrom path t :: vis)).2) := by
  simp only [goItems]
  rw [if_neg h1, if_neg (by rw [h2]; simp)]
  rw [h3]

/-! ## Claim theorems -/

/-- C3 (code bug): `extract_tar` does not reject parent-directory
traversal.  An archive member named `../evil.tex`, extracted into the
cache subdirectory, is written outside the extraction destination, while
the claim requires such an entry to be refused. -/
theorem C3_code_bug :
    extract_tar [("../evil.tex", [1, 2, 3])] "/root/.arxiv_cache/1234.5678" =
        [("/root/.arxiv_cache/evil.tex", [1, 2, 3])] ∧
      withinDir "/root/.arxiv_cache/1234.5678" "/root/.arxiv_cache/evil.tex" = false := by
  constructor
  · rfl
  · rfl

/-- C4 counterexample: the spec's grammar, in which the `abs`/`pdf` path
is optional, accepts the bare modern identifier `1234.5678`, but
`parse_arxiv_id` returns no identifier on it. -/
theorem C4_counterexample :
    SpecGrammar "1234.5678".data ∧ parse_arxiv_id "1234.5678" = none := by
  constructor
  · exact ⟨[], "1234.5678".data, [], by simp, Or.inr
      ⟨['1', '2', '3', '4'], ['5', '6', '7', '8'], by decide,
        ⟨by decide, by decide⟩, ⟨by decide, by decide⟩⟩⟩
  · rfl

/-- C4 (amended): `parse_arxiv_id` returns an identifier exactly when
the input contains the host literal `arxiv.org/` immediately followed by
`abs/` or `pdf/` and then a legacy-form or modern-form identifier; the
`abs`/`pdf` segment is mandatory, not optional.  On any other input it
returns no identifier, and it is a pure function (no side effects). -/
theorem C4_amended (url : String) :
    (parse_arxiv_id url).isSome ↔ CodeGrammar url.data :=
  parse_isSome_iff url

/-- C4 amended-claim sanity instance at a concrete URL. -/
theorem C4_witness : CodeGrammar "arxiv.org/abs/1.2".data :=
  (C4_amended "arxiv.org/abs/1.2").mp (by rfl)

/-- C5 counterexample: re-parsing a returned identifier does not yield
the identifier again; it yields nothing, because the returned group
lacks the mandatory host prefix. -/
theorem C5_counterexample :
    parse_arxiv_id "arxiv.org/abs/2401.12345" = some "2401.12345" ∧
      parse_arxiv_id "2401.12345" = none := by
  constructor
  · rfl
  · rfl

/-- C5 (amended): parsing is deterministic (it is a pure function, equal
inputs give equal results), and for every input that parses
successfully, re-parsing the returned identifier yields no identifier
(never the same identifier again). -/
theorem C5_amended :
    (∀ s : String, parse_arxiv_id s = parse_arxiv_id s) ∧
      ∀ url id : String, parse_arxiv_id url = some id → parse_arxiv_id id = none :=
  ⟨fun _ => rfl, fun _ _ h => parse_output_reparse_none h⟩

/-- C5 witness at a concrete URL. -/
theorem C5_witness :
    parse_arxiv_id "arxiv.org/pdf/9.9" = parse_arxiv_id "arxiv.org/pdf/9.9" ∧
      parse_arxiv_id "9.9" = none :=
  ⟨C5_amended.1 "arxiv.org/pdf/9.9", C5_amended.2 "arxiv.org/pdf/9.9" "9.9" (by rfl)⟩

/-- C8: cache round-trip.  After a first resolution whose fetch (status
200) and store succeed, the archive body is at the cached path, the
identifier is cached, and a second resolution performs zero network
calls, leaves the file system untouched, returns the same pair of paths,
and yields the byte-identical stored archive. -/
theorem C8_cache_roundtrip (net : String → NetResp) (cacheDir : String) (fs : FileSys)
    (arxiv_id : String) (body : ByteSeq)
    (hnc : is_cached cacheDir fs arxiv_id = false)
    (hnet : net arxiv_id = .resp 200 body) :
    (download_source net cacheDir fs arxiv_id).paths =
        some (joinP (get_cache_subdir cacheDir arxiv_id) "source.tar.gz",
          get_cache_subdir cacheDir arxiv_id) ∧
    (download_source net cacheDir fs arxiv_id).fs
        (joinP (get_cache_subdir cacheDir arxiv_id) "source.tar.gz") = some body ∧
    is_cached cacheDir (download_source net cacheDir fs arxiv_id).fs arxiv_id = true ∧
    (download_source net cacheDir
        (download_source net cacheDir fs arxiv_id).fs arxiv_id).netCalls = 0 ∧
    (download_source net cacheDir
        (download_source net cacheDir fs arxiv_id).fs arxiv_id).fs =
      (download_source net cacheDir fs arxiv_id).fs ∧
    (download_source net cacheDir
        (download_source net cacheDir fs arxiv_id).fs arxiv_id).paths =
      some (joinP (get_cache_subdir cacheDir arxiv_id) "source.tar.gz",
        get_cache_subdir cacheDir arxiv_id) ∧
    (download_source net cacheDir
        (download_source net cacheDir fs arxiv_id).fs arxiv_id).fs
      (joinP (get_cache_subdir cacheDir arxiv_id) "source.tar.gz") = some body := by
  have h1 : download_source net cacheDir fs arxiv_id =
      ⟨some (joinP (get_cache_subdir cacheDir arxiv_id) "source.tar.gz",
          get_cache_subdir cacheDir arxiv_id),
        cache_tar cacheDir fs arxiv_id body, 1⟩ := by
    unfold download_source
    rw [if_neg (by rw [hnc]; simp), hnet]
    simp
  have hstore : cache_tar cacheDir fs arxiv_id body
      (joinP (get_cache_subdir cacheDir arxiv_id) "source.tar.gz") = some body := by
    unfold cache_tar updateF
    rw [if_pos rfl]
  have hcached : is_cached cacheDir (cache_tar cacheDir fs arxiv_id body) arxiv_id = true := by
    unfold is_cached
    rw [hstore]
    rfl
  have h2 : download_source net cacheDir (cache_tar cacheDir fs arxiv_id body) arxiv_id =
      ⟨some (joinP (get_cache_subdir cacheDir arxiv_id) "source.tar.gz",
          get_cache_subdir cacheDir arxiv_id),
        cache_tar cacheDir fs arxiv_id body, 0⟩ := by
    unfold download_source
    rw [if_pos hcached]
  rw [h1]
  simp [h2, hstore, hcached]

/-- C8 witness on a concrete network, cache directory and identifier. -/
theorem C8_witness :
    is_cached "/h/.arxiv_cache" (fun _ => none) "1234.5678" = false ∧
      (download_source (fun _ => NetResp.resp 200 [42]) "/h/.arxiv_cache"
          (download_source (fun _ => NetResp.resp 200 [42]) "/h/.arxiv_cache"
            (fun _ => none) "1234.5678").fs "1234.5678").netCalls = 0 :=
  ⟨rfl, (C8_cache_roundtrip (fun _ => NetResp.resp 200 [42]) "/h/.arxiv_cache"
    (fun _ => none) "1234.5678" [42] rfl rfl).2.2.2.1⟩

/-- C9: fetch-failure atomicity.  For an identifier that is not cached,
a transport exception or a non-200 status makes `download_source` report
failure (`None, None`), leave the file system untouched, and leave the
identifier uncached. -/
theorem C9_fetch_failure (net : String → NetResp) (cacheDir : String) (fs : FileSys)
    (arxiv_id : String)
    (hnc : is_cached cacheDir fs arxiv_id = false)
    (hfail : net arxiv_id = .exn ∨
      ∃ st body, net arxiv_id = .resp st body ∧ st ≠ 200) :
    (download_source net cacheDir fs arxiv_id).paths = none ∧
    (download_source net cacheDir fs arxiv_id).fs = fs ∧
    is_cached cacheDir (download_source net cacheDir fs arxiv_id).fs arxiv_id = false := by
  rcases hfail with hx | ⟨st, body, hr, hst⟩
  · have h1 : download_source net cacheDir fs arxiv_id = ⟨none, fs, 1⟩ := by
      unfold download_source
      rw [if_neg (by rw [hnc]; simp), hx]
    rw [h1]
    exact ⟨rfl, rfl, hnc⟩
  · have h1 : download_source net cacheDir fs arxiv_id = ⟨none, fs, 1⟩ := by
      unfold download_source
      rw [if_neg (by rw [hnc]; simp), hr]
      simp only []
      rw [if_neg hst]
    rw [h1]
    exact ⟨rfl, rfl, hnc⟩

/-- C9 witness: a transport exception on an empty cache. -/
theorem C9_witness :
    (download_source (fun _ => NetResp.exn) "/h/.arxiv_cache"
        (fun _ => none) "1234.5678").paths = none ∧
      (download_source (fun _ => NetResp.exn) "/h/.arxiv_cache"
        (fun _ => none) "1234.5678").fs = (fun _ => none) :=
  ⟨(C9_fetch_failure (fun _ => NetResp.exn) "/h/.arxiv_cache" (fun _ => none)
      "1234.5678" rfl (Or.inl rfl)).1,
   (C9_fetch_failure (fun _ => NetResp.exn) "/h/.arxiv_cache" (fun _ => none)
      "1234.5678" rfl (Or.inl rfl)).2.1⟩

/-- C10: implicit claim on the extraction destination.  Whenever
`download_source` returns paths, the second component (the extraction
destination the pipeline hands to `extract_tar`) is the persistent cache
subdirectory `get_cache_subdir`, and the first is the cached archive
inside that same directory; consequently the pipeline extracts into the
cache subdirectory, and two resolutions of the same URL (with any file
system or network states) extract into the same directory. -/
theorem C10_pipeline_dest :
    (∀ (net : String → NetResp) (cacheDir : String) (fs : FileSys) (arxiv_id : String)
        (p : String × String),
      (download_source net cacheDir fs arxiv_id).paths = some p →
        p.2 = get_cache_subdir cacheDir arxiv_id ∧ p.1 = joinP p.2 "source.tar.gz") ∧
    (∀ (net : String → NetResp) (cacheDir : String) (fs : FileSys) (url arxiv_id : String)
        (p : String × String),
      parse_arxiv_id url = some arxiv_id →
      process_extract_dest net cacheDir fs url = some p →
        p.2 = get_cache_subdir cacheDir arxiv_id) ∧
    (∀ (net1 net2 : String → NetResp) (cacheDir : String) (fs1 fs2 : FileSys)
        (url arxiv_id : String) (p1 p2 : String × String),
      parse_arxiv_id url = some arxiv_id →
      process_extract_dest net1 cacheDir fs1 url = some p1 →
      process_extract_dest net2 cacheDir fs2 url = some p2 →
        p1.2 = p2.2) := by
  have ha : ∀ (net : String → NetResp) (cacheDir : String) (fs : FileSys)
      (arxiv_id : String) (p : String × String),
      (download_source net cacheDir fs arxiv_id).paths = some p →
        p.2 = get_cache_subdir cacheDir arxiv_id ∧ p.1 = joinP p.2 "source.tar.gz" := by
    intro net cacheDir fs arxiv_id p hp
    unfold download_source at hp
    by_cases hc : is_cached cacheDir fs arxiv_id = true
    · rw [if_pos hc] at hp
      simp only [Option.some.injEq] at hp
      rw [← hp]
      exact ⟨rfl, rfl⟩
    · rw [if_neg hc] at hp
      cases hnet : net arxiv_id with
      | exn => rw [hnet] at hp; cases hp
      | resp st body =>
        rw [hnet] at hp
        simp only [] at hp
        by_cases hst : st = 200
        · rw [if_pos hst] at hp
          simp only [Option.some.injEq] at hp
          rw [← hp]
          exact ⟨rfl, rfl⟩
        · rw [if_neg hst] at hp
          cases hp
  have hb : ∀ (net : String → NetResp) (cacheDir : String) (fs : FileSys)
      (url arxiv_id : String) (p : String × String),
      parse_arxiv_id url = some arxiv_id →
      process_extract_dest net cacheDir fs url = some p →
        p.2 = get_cache_subdir cacheDir arxiv_id := by
    intro net cacheDir fs url arxiv_id p hu hp
    unfold process_extract_dest at hp
    rw [hu] at hp
    simp only [] at hp
    exact (ha net cacheDir fs arxiv_id p hp).1
  refine ⟨ha, hb, ?_⟩
  intro net1 net2 cacheDir fs1 fs2 url arxiv_id p1 p2 hu hp1 hp2
  rw [hb net1 cacheDir fs1 url arxiv_id p1 hu hp1,
    hb net2 cacheDir fs2 url arxiv_id p2 hu hp2]

/-- C10 witness: a concrete end-to-end resolution extracts into the
cache subdirectory. -/
theorem C10_witness :
    process_extract_dest (fun _ => NetResp.resp 200 [1]) "/h/.arxiv_cache"
        (fun _ => none) "arxiv.org/abs/1234.5678" =
      some ("/h/.arxiv_cache/1234.5678/source.tar.gz", "/h/.arxiv_cache/1234.5678") ∧
    ("/h/.arxiv_cache/1234.5678/source.tar.gz", "/h/.arxiv_cache/1234.5678").2 =
      get_cache_subdir "/h/.arxiv_cache" "1234.5678" :=
  ⟨rfl, C10_pipeline_dest.2.1 (fun _ => NetResp.resp 200 [1]) "/h/.arxiv_cache"
    (fun _ => none) "arxiv.org/abs/1234.5678" "1234.5678"
    ("/h/.arxiv_cache/1234.5678/source.tar.gz", "/h/.arxiv_cache/1234.5678")
    (by rfl) (by rfl)⟩

/-- C6: entry-point detection priority.  If the walk contains a `.tex`
file whose lower-cased base name is conventional, and also a differently
named `.tex` file with a strictly higher structural score, then
`find_main_tex` returns the first conventional name match in traversal
order (heuristic 1 strictly precedes heuristic 2). -/
theorem C6_conventional_priority (files : List WalkFile) (a b : WalkFile) (ca cb : String)
    (ha : a ∈ texFiles files) (haConv : isConvName a = true)
    (_hb : b ∈ texFiles files) (_hbConv : isConvName b = false)
    (_hca : a.content = some ca) (_hcb : b.content = some cb)
    (_hscore : texScore cb > texScore ca) :
    ∃ f, (texFiles files).find? isConvName = some f ∧ isConvName f = true ∧
      find_main_tex files = some f.path := by
  have hsome : ((texFiles files).find? isConvName).isSome :=
    List.find?_isSome.mpr ⟨a, ha, haConv⟩
  obtain ⟨f, hf⟩ := Option.isSome_iff_exists.mp hsome
  have hne : (texFiles files).isEmpty = false := by
    cases htex : texFiles files with
    | nil => rw [htex] at ha; cases ha
    | cons x xs => rfl
  refine ⟨f, hf, List.find?_some hf, ?_⟩
  simp [find_main_tex, hne, hf]

/-- C6 witness: a low-scoring conventionally named file beats a
higher-scoring file. -/
theorem C6_witness :
    find_main_tex
      [⟨"r/MAIN.tex", some "", 1⟩,
       ⟨"r/body.tex", some "\\documentclass \\usepackage", 9⟩] = some "r/MAIN.tex" := by
  obtain ⟨f, hfind, _, hmain⟩ := C6_conventional_priority
    [⟨"r/MAIN.tex", some "", 1⟩, ⟨"r/body.tex", some "\\documentclass \\usepackage", 9⟩]
    ⟨"r/MAIN.tex", some "", 1⟩ ⟨"r/body.tex", some "\\documentclass \\usepackage", 9⟩
    "" "\\documentclass \\usepackage"
    (by decide) (by decide) (by decide) (by decide) rfl rfl (by decide)
  have hfeq : f = ⟨"r/MAIN.tex", some "", 1⟩ := by
    have : (texFiles [(⟨"r/MAIN.tex", some "", 1⟩ : WalkFile),
        ⟨"r/body.tex", some "\\documentclass \\usepackage", 9⟩]).find? isConvName =
        some ⟨"r/MAIN.tex", some "", 1⟩ := by decide
    rw [this] at hfind
    exact (Option.some.injEq ..).mp hfind.symm
  rw [hmain, hfeq]

/-- C7: structural-scoring selection.  When no conventional name is
present: (i) with a positive best score the first file attaining the
maximum score among the readable candidates, in traversal order, is
selected (which settles equal-score ties); (ii) detection never fails
while any `.tex` file exists (an unreadable file is not fatal);
(iii) a best score of zero makes heuristic 2 yield nothing, so the
result comes from the largest-file fallback; (iv) an unreadable file is
skipped during scoring: it never appears among the scored candidates. -/
theorem C7_scoring_selection (files : List WalkFile)
    (hconv : ∀ f ∈ texFiles files, isConvName f = false) :
    (0 < maxVal (scoredList files) →
      find_main_tex files =
        ((scoredList files).find?
          (fun z => z.2 == maxVal (scoredList files))).map (fun z => z.1)) ∧
    (texFiles files ≠ [] → (find_main_tex files).isSome = true) ∧
    (maxVal (scoredList files) = 0 → texFiles files ≠ [] →
      find_main_tex files =
        ((sortBySizeDesc (texFiles files)).head?).map (fun f => f.path)) ∧
    (∀ f ∈ texFiles files, f.content = none →
      (∀ g ∈ files, g.path = f.path → g = f) →
      f.path ∉ (scoredList files).map (fun z => z.1)) := by
  have hfind : (texFiles files).find? isConvName = none :=
    List.find?_eq_none.mpr (fun x hx => by simp [hconv x hx])
  have hempty_of : ∀ h : texFiles files ≠ [], (texFiles files).isEmpty = false := by
    intro h
    cases htex : texFiles files with
    | nil => exact absurd htex h
    | cons x xs => rfl
  refine ⟨?_, ?_, ?_, ?_⟩
  · intro hpos
    cases hsc : scoredList files with
    | nil => rw [hsc] at hpos; simp [maxVal] at hpos
    | cons x xs =>
      have htne : texFiles files ≠ [] := by
        intro htex
        rw [show scoredList files = [] from by unfold scoredList; rw [htex]; rfl] at hsc
        cases hsc
      have hpm : pickMax (scoredList files) =
          (scoredList files).find? (fun z => z.2 == maxVal (scoredList files)) := by
        rw [hsc]
        exact pickMax_eq_find? x xs
      obtain ⟨z, hz, hzv⟩ := @maxVal_mem (scoredList files) (by rw [hsc]; simp)
      have hfs : ((scoredList files).find?
          (fun z => z.2 == maxVal (scoredList files))).isSome :=
        List.find?_isSome.mpr ⟨z, hz, by simp [hzv]⟩
      obtain ⟨best, hbest⟩ := Option.isSome_iff_exists.mp hfs
      have hbv : best.2 = maxVal (scoredList files) := by
        simpa using List.find?_some hbest
      have hbpos : best.2 > 0 := by omega
      simp [find_main_tex, hempty_of htne, hfind, hpm, hbest, hbpos, ← hsc]
  · intro htne
    have hsort := sortBySizeDesc_ne_nil htne
    cases hs : sortBySizeDesc (texFiles files) with
    | nil => exact absurd hs hsort
    | cons w ws =>
      cases hpm : pickMax (scoredList files) with
      | none => simp [find_main_tex, hempty_of htne, hfind, hpm, hs]
      | some best =>
        by_cases hbp : best.2 > 0
        · simp [find_main_tex, hempty_of htne, hfind, hpm, hbp]
        · simp [find_main_tex, hempty_of htne, hfind, hpm, hbp, hs]
  · intro hz htne
    cases hpm : pickMax (scoredList files) with
    | none => simp [find_main_tex, hempty_of htne, hfind, hpm]
    | some best =>
      cases hsc : scoredList files with
      | nil => rw [hsc] at hpm; cases hpm
      | cons x xs =>
        have hpm2 : (scoredList files).find?
            (fun z => z.2 == maxVal (scoredList files)) = some best := by
          rw [← hpm, hsc]
          exact (pickMax_eq_find? x xs).symm
        have hbv : best.2 = maxVal (scoredList files) := by
          simpa using List.find?_some hpm2
        have hbz : ¬(best.2 > 0) := by omega
        simp [find_main_tex, hempty_of htne, hfind, hpm, hbz]
  · intro f hf hcontent hinj hmem
    obtain ⟨z, hz, hzp⟩ := List.mem_map.mp hmem
    obtain ⟨g, hg, hgz⟩ := List.mem_filterMap.mp hz
    obtain ⟨c, hc, _⟩ := Option.map_eq_some'.mp hgz
    have hgf : g = f := hinj g (List.mem_filter.mp hg).1 (by
      have : z.1 = g.path := by
        obtain ⟨c', _, hzc⟩ := Option.map_eq_some'.mp hgz
        rw [← hzc]
      rw [← hzp, this])
    rw [hgf] at hc
    rw [hc] at hcontent
    cases hcontent

/-- C7 witness: no conventional names; two readable files tie at the
positive maximum score and the first wins; an unreadable file is present
and skipped. -/
theorem C7_witness :
    (∀ f ∈ texFiles
      [⟨"r/a.tex", some "x", 1⟩, ⟨"r/bad.tex", none, 50⟩,
       ⟨"r/b.tex", some "\\documentclass", 2⟩, ⟨"r/c.tex", some "\\documentclass", 3⟩],
      isConvName f = false) ∧
    find_main_tex
      [⟨"r/a.tex", some "x", 1⟩, ⟨"r/bad.tex", none, 50⟩,
       ⟨"r/b.tex", some "\\documentclass", 2⟩, ⟨"r/c.tex", some "\\documentclass", 3⟩] =
      ((scoredList
        [⟨"r/a.tex", some "x", 1⟩, ⟨"r/bad.tex", none, 50⟩,
         ⟨"r/b.tex", some "\\documentclass", 2⟩, ⟨"r/c.tex", some "\\documentclass", 3⟩]).find?
        (fun z => z.2 == maxVal (scoredList
          [⟨"r/a.tex", some "x", 1⟩, ⟨"r/bad.tex", none, 50⟩,
           ⟨"r/b.tex", some "\\documentclass", 2⟩,
           ⟨"r/c.tex", some "\\documentclass", 3⟩]))).map (fun z => z.1) :=
  ⟨by decide,
    (C7_scoring_selection
      [⟨"r/a.tex", some "x", 1⟩, ⟨"r/bad.tex", none, 50⟩,
       ⟨"r/b.tex", some "\\documentclass", 2⟩, ⟨"r/c.tex", some "\\documentclass", 3⟩]
      (by decide)).1 (by decide)⟩

/-- C1: cycle safety.  For two distinct files that mutually include each
other, the run terminates with an `ok` result in which each file's
content was inlined exactly once (the root file is re-inlined once via
the cycle, its own directive then being the second occurrence), the
second directive targeting the already-inlined file is replaced by the
skip marker, and the final visited set holds each resolved path exactly
once (it is exactly `[a, b]`, with no duplicates). -/
theorem C1_cycle_safety (fs : FS) (a b ta tb x1 x2 y1 y2 : String)
    (hab : a ≠ b)
    (hfa : fs a = some (.readable [.text x1, .incl ta, .text x2]))
    (hfb : fs b = some (.readable [.text y1, .incl tb, .text y2]))
    (hra : resolveFrom a ta = b) (hrb : resolveFrom b tb = a) :
    inline_tex fs a [] 0 10 =
      .ok (x1 ++ y1 ++ x1 ++ skipMarker (fixExt ta) ++ x2 ++ y2 ++ x2, [a, b]) ∧
    ([a, b] : List String).Nodup := by
  have hreadA : readF fs a = some [.text x1, .incl ta, .text x2] := by
    simp [readF, hfa]
  have hreadB : readF fs b = some [.text y1, .incl tb, .text y2] := by
    simp [readF, hfb]
  have htailA : ∀ (rec : String → List String → Except Unit (String × List String))
      (vis : List String), goItems fs rec a [.text x2] vis = (x2, vis) := by
    intro rec vis
    rw [goItems_text, goItems_nil]
    simp
  have htailB : ∀ (rec : String → List String → Except Unit (String × List String))
      (vis : List String), goItems fs rec b [.text y2] vis = (y2, vis) := by
    intro rec vis
    rw [goItems_text, goItems_nil]
    simp
  have hinner2 : ∀ (rec : String → List String → Except Unit (String × List String)),
      goItems fs rec a [.incl ta, .text x2] [a, b] =
        (skipMarker (fixExt ta) ++ x2, [a, b]) := by
    intro rec
    rw [goItems_incl_skip fs rec a ta [.text x2] [a, b] (by rw [hra]; simp)]
    rw [htailA]
  have hinner3 : ∀ (rec : String → List String → Except Unit (String × List String)),
      goItems fs rec a [.text x1, .incl ta, .text x2] [a, b] =
        (x1 ++ (skipMarker (fixExt ta) ++ x2), [a, b]) := by
    intro rec
    rw [goItems_text, hinner2]
  have hA9 : inlineAux fs 9 a [a, b] =
      .ok (x1 ++ (skipMarker (fixExt ta) ++ x2), [a, b]) := by
    rw [show (9 : Nat) = 8 + 1 from rfl, inlineAux_succ, hreadA]
    simp only []
    rw [hinner3]
  have hB1 : goItems fs (inlineAux fs 9) b [.incl tb, .text y2] [b] =
      ((x1 ++ (skipMarker (fixExt ta) ++ x2)) ++ y2, [a, b]) := by
    rw [goItems_incl_rec_ok fs (inlineAux fs 9) b tb [.text y2] [b] [a, b]
      (x1 ++ (skipMarker (fixExt ta) ++ x2))
      (by rw [hrb]; simp [hab])
      (by rw [hrb, hfa]; rfl)
      (by rw [hrb]; exact hA9)]
    rw [htailB]
  have hB2 : goItems fs (inlineAux fs 9) b [.text y1, .incl tb, .text y2] [b] =
      (y1 ++ ((x1 ++ (skipMarker (fixExt ta) ++ x2)) ++ y2), [a, b]) := by
    rw [goItems_text, hB1]
  have hB10 : inlineAux fs 10 b [b] =
      .ok (y1 ++ ((x1 ++ (skipMarker (fixExt ta) ++ x2)) ++ y2), [a, b]) := by
    rw [show (10 : Nat) = 9 + 1 from rfl, inlineAux_succ, hreadB]
    simp only []
    rw [hB2]
  have hTop1 : goItems fs (inlineAux fs 10) a [.incl ta, .text x2] [] =
      ((y1 ++ ((x1 ++ (skipMarker (fixExt ta) ++ x2)) ++ y2)) ++ x2, [a, b]) := by
    rw [goItems_incl_rec_ok fs (inlineAux fs 10) a ta [.text x2] [] [a, b]
      (y1 ++ ((x1 ++ (skipMarker (fixExt ta) ++ x2)) ++ y2))
      (by simp)
      (by rw [hra, hfb]; rfl)
      (by rw [hra]; exact hB10)]
    rw [htailA]
  have hTop2 : goItems fs (inlineAux fs 10) a [.text x1, .incl ta, .text x2] [] =
      (x1 ++ ((y1 ++ ((x1 ++ (skipMarker (fixExt ta) ++ x2)) ++ y2)) ++ x2), [a, b]) := by
    rw [goItems_text, hTop1]
  constructor
  · rw [show inline_tex fs a [] 0 10 = inlineAux fs (10 + 1) a [] from rfl,
      inlineAux_succ, hreadA]
    simp only []
    rw [hTop2]
    simp [String.append_assoc]
  · simp [hab]

/-- A concrete mutually-including pair for the C1 witness. -/
def fsPair : FS := fun p =>
  if p = "d/a.tex" then some (.readable [.text "x1", .incl "b", .text "x2"])
  else if p = "d/b.tex" then some (.readable [.text "y1", .incl "a", .text "y2"])
  else none

/-- C1 witness on the concrete mutually-including pair. -/
theorem C1_witness :
    inline_tex fsPair "d/a.tex" [] 0 10 =
      .ok ("x1" ++ "y1" ++ "x1" ++ skipMarker (fixExt "b") ++ "x2" ++ "y2" ++ "x2",
        ["d/a.tex", "d/b.tex"]) ∧
    (["d/a.tex", "d/b.tex"] : List String).Nodup :=
  C1_cycle_safety fsPair "d/a.tex" "d/b.tex" "b" "a" "x1" "x2" "y1" "y2"
    (by decide) (by rfl) (by rfl) (by rfl) (by rfl)

/-- C2: depth-bound containment.  (i) A call at depth exceeding the
bound signals the recursion error; (ii) a call at depth within the bound
never signals (the immediately enclosing caller catches every deeper
signal); (iii) at the last admissible depth, a directive whose target
exists and is unvisited is replaced by the recursion-limit marker alone,
with the remaining sibling directives of that file still processed; and
(iv) the top-level combination (depth 0, default bound 10) is never
aborted. -/
theorem C2_depth_bound :
    (∀ (fs : FS) (p : String) (vis : List String) (d m : Nat), d > m →
      inline_tex fs p vis d m = .error ()) ∧
    (∀ (fs : FS) (p : String) (vis : List String) (d m : Nat), d ≤ m →
      (inline_tex fs p vis d m).isOk = true) ∧
    (∀ (fs : FS) (p t : String) (rest : List Item) (vis : List String) (m : Nat),
      fs p = some (.readable (.incl t :: rest)) →
      resolveFrom p t ∉ vis → (fs (resolveFrom p t)).isNone = false →
      inline_tex fs p vis m m =
        .ok (recLimitMarker (fixExt t) ++
            (goItems fs (inlineAux fs 0) p rest (resolveFrom p t :: vis)).1,
          (goItems fs (inlineAux fs 0) p rest (resolveFrom p t :: vis)).2)) ∧
    (∀ (fs : FS) (main : String), (combine_tex_files fs main).isSome = true) := by
  have hok : ∀ (fs : FS) (p : String) (vis : List String) (d m : Nat), d ≤ m →
      (inline_tex fs p vis d m).isOk = true := by
    intro fs p vis d m h
    unfold inline_tex
    rw [show m + 1 - d = (m - d) + 1 from by omega, inlineAux_succ]
    cases h2 : readF fs p with
    | none => rfl
    | some items => rfl
  refine ⟨?_, hok, ?_, ?_⟩
  · intro fs p vis d m h
    unfold inline_tex
    rw [show m + 1 - d = 0 from by omega, inlineAux_zero]
  · intro fs p t rest vis m hfp h1 h2
    unfold inline_tex
    rw [show m + 1 - m = 0 + 1 from by omega, inlineAux_succ,
      show readF fs p = some (.incl t :: rest) from by simp [readF, hfp]]
    simp only []
    rw [goItems_incl_rec_err fs (inlineAux fs 0) p t rest vis h1 h2 (inlineAux_zero ..)]
  · intro fs main
    have h := hok fs main [] 0 10 (by omega)
    unfold combine_tex_files
    cases hit : inline_tex fs main [] 0 10 with
    | error e => rw [hit] at h; cases h
    | ok r =>
      obtain ⟨s, vis⟩ := r
      rfl

/-- A file whose single include target exists, for the C2 witness. -/
def fsDeep : FS := fun p =>
  if p = "f.tex" then some (.readable [.incl "g", .text "T"])
  else if p = "g.tex" then some (.readable [.text "G"])
  else none

/-- C2 witness: a call past the bound errors; calls within the bound and
the top-level combination never abort; at the last admissible depth the
offending directive becomes the limit marker and the sibling text
remains. -/
theorem C2_witness :
    inline_tex (fun _ => none) "f.tex" [] 11 10 = .error () ∧
    (inline_tex (fun _ => none) "f.tex" [] 0 10).isOk = true ∧
    inline_tex fsDeep "f.tex" [] 10 10 =
      .ok (recLimitMarker (fixExt "g") ++
          (goItems fsDeep (inlineAux fsDeep 0) "f.tex" [.text "T"]
            [resolveFrom "f.tex" "g"]).1,
        (goItems fsDeep (inlineAux fsDeep 0) "f.tex" [.text "T"]
          [resolveFrom "f.tex" "g"]).2) ∧
    (combine_tex_files fsDeep "f.tex").isSome = true :=
  ⟨C2_depth_bound.1 (fun _ => none) "f.tex" [] 11 10 (by omega),
   C2_depth_bound.2.1 (fun _ => none) "f.tex" [] 0 10 (by omega),
   C2_depth_bound.2.2.1 fsDeep "f.tex" "g" [.text "T"] [] 10 (by rfl) (by simp) (by rfl),
   C2_depth_bound.2.2.2 fsDeep "f.tex"⟩

end ArxivDL
